import Mathlib

/-!
Shallow embedding of `UnrealDevHelper.py` (Build Orchestration & Process-
Streaming Engine) and proofs of the frozen claims about it.

Conventions used throughout:
* Python strings become `String`, Python lists become `List`.
* The filesystem visible to the cleanup pass is modelled as a set of paths
  (`FS`): each path is its component list relative to the project root.
* Exceptions raised by a deletion (`shutil.rmtree` / `os.remove`) are
  modelled by an oracle `fail : List String → Option String`; `some e`
  means the attempt raises an exception whose text is `e`.
* External process behaviour (`subprocess.Popen`) is modelled by a
  `CmdResult` per command string: either the process spawns and yields a
  list of output lines plus an exit code, or spawning raises.
* Bounded recursion (the ANSI scanner and the recursive cleanup walk) is
  expressed with an explicit fuel parameter so that every definition is
  structural and computes by kernel reduction; the public wrappers supply
  fuel that provably exceeds the recursion depth.
-/

/-! ## ANSI parser (`ANSI_COLORS`, `parse_ansi`, lines 27-70) -/

/-- The `ANSI_COLORS` dictionary (lines 27-36): the eight recognized base
codes and their color tags. -/
def ANSI_COLORS : List (String × String) :=
  [("30", "ansi_black"), ("31", "ansi_red"), ("32", "ansi_green"),
   ("33", "ansi_yellow"), ("34", "ansi_blue"), ("35", "ansi_magenta"),
   ("36", "ansi_cyan"), ("37", "ansi_white")]

/-- Dictionary lookup `ANSI_COLORS[c]` (`c in ANSI_COLORS` / indexing). -/
def ansiLookup (c : String) : Option String :=
  (ANSI_COLORS.find? (fun p => p.1 == c)).map (fun p => p.2)

/-- Characters matched by the regex character class `[0-9;]`. -/
def isCodeChar (c : Char) : Bool := c.isDigit || c == ';'

/-- Matching the regex `\x1b\[[0-9;]*m` at the head of the text: returns the
code characters (between `\x1b[` and `m`) and the remaining text.  Mirrors
`re.compile(r'(\x1b\[[0-9;]*m)')` (line 46): after `\x1b[` the greedy class
`[0-9;]*` consumes the maximal run, which must be followed by `m`. -/
def matchEsc : List Char → Option (List Char × List Char)
  | '\x1b' :: '[' :: rest =>
    match rest.dropWhile isCodeChar with
    | 'm' :: tl => some (rest.takeWhile isCodeChar, tl)
    | _ => none
  | _ => none

/-- Python `code.split(';')` on the code characters (auxiliary fold). -/
def splitSemisAux : List Char → List Char → List String
  | [], acc => [String.mk acc.reverse]
  | c :: rest, acc =>
    if c == ';' then String.mk acc.reverse :: splitSemisAux rest []
    else splitSemisAux rest (c :: acc)

/-- Python `code.split(';')` (line 56): always returns at least one piece. -/
def splitSemis (cs : List Char) : List String := splitSemisAux cs []

/-- One step of the loop `for c in codes` (lines 58-62): `'0'` clears the
color, a key of `ANSI_COLORS` sets it, anything else leaves it unchanged. -/
def applyCode (cur : Option String) (c : String) : Option String :=
  if c == "0" then none
  else
    match ansiLookup c with
    | some col => some col
    | none => cur

/-- The whole loop `for c in codes` (lines 57-63). -/
def applyCodes (cur : Option String) (codes : List String) : Option String :=
  codes.foldl applyCode cur

/-- Core scan of `parse_ansi` (lines 48-68).  `pending` holds, reversed, the
text accumulated since the previous escape sequence; a pending segment is
emitted (tagged with the color that was current when it began) whenever an
escape sequence or the end of input is reached, and only if it is nonempty.
The fuel argument only bounds recursion; `text.length + 1` is always
enough. -/
def parseAnsiAux : Nat → List Char → Option String → List Char →
    List (List Char × Option String)
  | 0, _, _, _ => []
  | fuel + 1, text, color, pending =>
    match matchEsc text with
    | some (run, tl) =>
      (if pending.isEmpty then [] else [(pending.reverse, color)]) ++
        parseAnsiAux fuel tl (applyCodes color (splitSemis run)) []
    | none =>
      match text with
      | [] => if pending.isEmpty then [] else [(pending.reverse, color)]
      | c :: rest => parseAnsiAux fuel rest color (c :: pending)

/-- `parse_ansi` (lines 38-70): list of `(segment, color_tag)` pairs. -/
def parse_ansi (s : String) : List (String × Option String) :=
  (parseAnsiAux (s.data.length + 1) s.data none []).map
    (fun seg => (String.mk seg.1, seg.2))

/-- The input with every regex match removed and nothing else changed: the
reference meaning of "the input minus the escape sequences". -/
def stripAnsiAux : Nat → List Char → List Char
  | 0, _ => []
  | fuel + 1, text =>
    match matchEsc text with
    | some (_, tl) => stripAnsiAux fuel tl
    | none =>
      match text with
      | [] => []
      | c :: rest => c :: stripAnsiAux fuel rest

/-- String-level wrapper for `stripAnsiAux`. -/
def stripAnsiStr (s : String) : String :=
  String.mk (stripAnsiAux (s.data.length + 1) s.data)

/-- Concatenation of the text parts of a segment list. -/
def joinSegs (segs : List (List Char × Option String)) : List Char :=
  segs.foldr (fun seg acc => seg.1 ++ acc) []

/-- Concatenation of the text parts at the `String` level. -/
def concatTexts (segs : List (String × Option String)) : String :=
  String.mk (segs.foldr (fun seg acc => seg.1.data ++ acc) [])

/-! ## Log queue (`log_queue`, `log`, `poll_log_queue_colored`, lines 18-89) -/

/-- One interaction with the process-wide `log_queue`: a producer calls
`log(message)` (`queue.put`), or the rendering loop drains everything
currently queued (`get_nowait` until `queue.Empty`). -/
inductive ChanOp where
  | enq (m : String)
  | drain
deriving DecidableEq

/-- The `log` function (lines 20-22): `queue.put` appends to the queue. -/
def logPut (q : List String) (m : String) : List String := q ++ [m]

/-- The drain loop of `poll_log_queue_colored` (lines 78-87): `get_nowait`
repeatedly until the queue raises `queue.Empty`, which on a FIFO queue
returns every queued message in order and leaves the queue empty; on an
empty queue it returns immediately with no messages. -/
def drainAll (q : List String) : List String × List String := (q, [])

/-- Runs a sequence of channel operations from a given queue state,
returning the final queue state and the successive drain batches. -/
def runOps : List ChanOp → List String → List String × List (List String)
  | [], q => (q, [])
  | ChanOp.enq m :: rest, q => runOps rest (logPut q m)
  | ChanOp.drain :: rest, q =>
    let d := drainAll q
    let r := runOps rest d.2
    (r.1, d.1 :: r.2)

/-- The messages enqueued by a sequence of operations, in order. -/
def enqueuedMsgs (ops : List ChanOp) : List String :=
  ops.filterMap (fun op =>
    match op with
    | ChanOp.enq m => some m
    | ChanOp.drain => none)

/-! ## Process streamer (`run_command_stream`, lines 94-124) -/

/-- Behaviour of the external world for one `subprocess.Popen` call: either
the process spawns, produces the given raw output lines and exits with the
given code, or spawning raises an exception with the given text. -/
inductive CmdResult where
  | spawned (lines : List String) (exitCode : Int)
  | raised (msg : String)

/-- Python `line.rstrip("\n")`. -/
def rstripNewlines (s : String) : String :=
  String.mk (s.data.reverse.dropWhile (fun c => c == '\n')).reverse

/-- Observable outcome of one `run_command_stream` call: the log lines it
emitted and the successive values it wrote to `status_var`, each in order. -/
structure StreamOut where
  logs : List String
  statuses : List String
deriving DecidableEq

/-- `run_command_stream` (lines 94-124).  The status is set and the start
message logged before spawning; each nonempty output line is forwarded with
trailing newlines stripped; exit code 0 yields status `"Done"` plus the
finish message, a nonzero code yields status `"Error"` plus a line naming
the code, and a spawn exception is caught, logged and yields status
`"Error"`.  The function is total: no case re-raises. -/
def run_command_stream (res : CmdResult) (start_message finish_message : String) :
    StreamOut :=
  match res with
  | CmdResult.raised e =>
    ⟨[start_message, "Error: " ++ e], [start_message, "Error"]⟩
  | CmdResult.spawned lines code =>
    let outLines :=
      ((lines.takeWhile (fun l => !(l == ""))).filter (fun l => !(l == ""))).map
        rstripNewlines
    if code = 0 then
      ⟨[start_message] ++ outLines ++ [finish_message], [start_message, "Done"]⟩
    else
      ⟨[start_message] ++ outLines ++
        ["Error: command returned exit code " ++ toString code],
       [start_message, "Error"]⟩

/-! ## Filesystem model and cleanup (lines 144-210) -/

/-- Filesystem seen by the cleanup pass: the directory paths and the file
paths, each path being its component list relative to the project root
(the root itself is `[]`).  Listing order of `os.listdir` is the order of
appearance in `dirs`. -/
structure FS where
  dirs : List (List String)
  files : List (List String)
deriving DecidableEq

/-- Component-wise path prefix test. -/
def isPathPrefix : List String → List String → Bool
  | [], _ => true
  | _ :: _, [] => false
  | a :: as, b :: bs => a == b && isPathPrefix as bs

/-- `os.path.isdir` on a path under the project root. -/
def isdir (fs : FS) (p : List String) : Bool := fs.dirs.contains p

/-- `os.path.isfile` on a path under the project root. -/
def isfile (fs : FS) (p : List String) : Bool := fs.files.contains p

/-- `shutil.rmtree`: removes the directory and everything below it. -/
def rmtree (fs : FS) (p : List String) : FS :=
  ⟨fs.dirs.filter (fun q => !(isPathPrefix p q)),
   fs.files.filter (fun q => !(isPathPrefix p q))⟩

/-- `os.remove`: removes one file path. -/
def removeFile (fs : FS) (p : List String) : FS :=
  ⟨fs.dirs, fs.files.filter (fun q => !(q == p))⟩

/-- The names of the directory entries of `p` that are themselves
directories, in listing order (the `os.listdir` loop only acts on entries
that pass `os.path.isdir`). -/
def childDirNames (fs : FS) (p : List String) : List String :=
  fs.dirs.filterMap (fun q =>
    if q.length == p.length + 1 && isPathPrefix p q then q.getLast? else none)

/-- `os.path.join` of two components (Windows separator). -/
def joinPath (a b : String) : String := a ++ "\\" ++ b

/-- `os.path.join` of a root with a list of components. -/
def joinAll (root : String) (parts : List String) : String :=
  parts.foldl joinPath root

/-- The folder-deletion loop (lines 145-152 and 186-192): for each listed
folder name, if the directory exists, try `shutil.rmtree`; an exception is
caught and logged with the offending path and the loop continues. -/
def removeFoldersPass (root : String) (fail : List String → Option String)
    (path : List String) : List String → FS → FS × List String
  | [], fs => (fs, [])
  | f :: rest, fs =>
    if isdir fs (path ++ [f]) then
      match fail (path ++ [f]) with
      | some e =>
        let r := removeFoldersPass root fail path rest fs
        (r.1,
         ("Error removing folder " ++ joinAll root (path ++ [f]) ++ ": " ++ e)
           :: r.2)
      | none =>
        let r := removeFoldersPass root fail path rest (rmtree fs (path ++ [f]))
        (r.1, ("Removed folder: " ++ joinAll root (path ++ [f])) :: r.2)
    else removeFoldersPass root fail path rest fs

/-- The file-deletion loop (lines 153-160 and 202-208): for each listed
file name, if the file exists, try `os.remove`; an exception is caught and
logged with the offending path and the loop continues. -/
def removeFilesPass (root : String) (fail : List String → Option String)
    (path : List String) : List String → FS → FS × List String
  | [], fs => (fs, [])
  | f :: rest, fs =>
    if isfile fs (path ++ [f]) then
      match fail (path ++ [f]) with
      | some e =>
        let r := removeFilesPass root fail path rest fs
        (r.1,
         ("Error removing file " ++ joinAll root (path ++ [f]) ++ ": " ++ e)
           :: r.2)
      | none =>
        let r := removeFilesPass root fail path rest (removeFile fs (path ++ [f]))
        (r.1, ("Removed file: " ++ joinAll root (path ++ [f])) :: r.2)
    else removeFilesPass root fail path rest fs

/-- The `for entry in os.listdir(directory)` loop (lines 161-164): descend
with `step` into every remaining subdirectory, in listing order. -/
def rirChildren (step : List String → FS → FS × List String)
    (path : List String) : List String → FS → FS × List String
  | [], fs => (fs, [])
  | n :: rest, fs =>
    let r1 := step (path ++ [n]) fs
    let r2 := rirChildren step path rest r1.1
    (r2.1, r1.2 ++ r2.2)

/-- `remove_items_recursively` (lines 144-164): delete the listed folders,
then the listed files, then recurse into every remaining subdirectory.
The fuel argument only bounds the recursion depth; `maxPathLen fs + 1` is
always enough. -/
def remove_items_recursively (root : String) (fail : List String → Option String)
    (folders_to_delete files_to_delete : List String) :
    Nat → List String → FS → FS × List String
  | 0, _, fs => (fs, [])
  | fuel + 1, path, fs =>
    let p1 := removeFoldersPass root fail path folders_to_delete fs
    let p2 := removeFilesPass root fail path files_to_delete p1.1
    let p3 := rirChildren
      (remove_items_recursively root fail folders_to_delete files_to_delete fuel)
      path (childDirNames p2.1 path) p2.1
    (p3.1, p1.2 ++ p2.2 ++ p3.2)

/-- Length of the longest path present in the filesystem: an upper bound on
the recursion depth of the cleanup walk. -/
def maxPathLen (fs : FS) : Nat :=
  ((fs.dirs ++ fs.files).map List.length).foldr Nat.max 0

/-- Python `os.path.splitext(...)[0]` for a file name with a proper stem:
the name up to its last dot (the name itself when it has no dot). -/
def stripExt (s : String) : String :=
  if s.data.any (fun c => c == '.') then
    String.mk ((s.data.reverse.dropWhile (fun c => !(c == '.'))).drop 1).reverse
  else s

/-- `clean_plugins_folder` (lines 166-174). -/
def clean_plugins_folder (root : String) (fail : List String → Option String)
    (fs : FS) (project_name : String) : FS × List String :=
  if !(isdir fs ["Plugins"]) then
    (fs, ["Plugins folder not found in " ++ root ++ "."])
  else
    let r := remove_items_recursively root fail
      [".vs", "Binaries", "DerivedDataCache", "Intermediate", "Saved"]
      [project_name ++ ".sln", ".vsconfig"]
      (maxPathLen fs + 1) ["Plugins"] fs
    (r.1, "Cleaning plugin folders and files..." :: r.2)

/-- The root-relative artifact folders of `clean_files_and_folders`
(lines 178-185). -/
def rootArtifactFolders : List String :=
  [".vs", ".idea", "Binaries", "DerivedDataCache", "Intermediate", "Saved"]

/-- `clean_files_and_folders` (lines 176-210).  `uprojects` is the result
of the `glob.glob("*.uproject")` call on line 194 (the working directory is
the project root when this runs, so the hits are root-relative names). -/
def clean_files_and_folders (root : String) (uprojects : List String)
    (fail : List String → Option String) (fs : FS) (project_name : String) :
    FS × List String :=
  let p1 := removeFoldersPass root fail [] rootArtifactFolders fs
  let p2 :=
    match uprojects with
    | [] => (p1.1, ([] : List String))
    | pf :: _ =>
      removeFilesPass root fail [] [stripExt pf ++ ".sln", ".vsconfig"] p1.1
  let p3 := clean_plugins_folder root fail p2.1 project_name
  (p3.1,
   ["Cleaning project root folders..."] ++ p1.2 ++
   ["Cleaning project root files..."] ++ p2.2 ++ p3.2 ++
   ["Cleanup completed successfully!"])

/-! ## Engine resolution and the compile pipeline (lines 129-142, 215-305,
474-481) -/

/-- Python truthiness of an optional string (`if not x`). -/
def strTruthy : Option String → Bool
  | none => false
  | some s => !(s == "")

/-- Everything outside the program that `run_build_process` consults:
the working directory, the `glob` result, the parsed `EngineAssociation`
value, the `UNREAL_ENGINE_PATH` environment variable, the registry, plain
`os.path.exists` on engine-side paths, the project tree, the deletion
oracle, and the behaviour of each spawned command. -/
structure World where
  cwd : String
  uprojects : List String
  engineAssoc : Option String
  envPath : Option String
  registry : String → Option String
  diskExists : String → Bool
  fs : FS
  deleteFail : List String → Option String
  cmd : String → CmdResult

/-- `find_unreal_engine_path_from_registry` (lines 129-142): `none` from
the registry models the `FileNotFoundError` branch; a hit is returned only
when the stored directory is truthy and exists on disk. -/
def find_unreal_engine_path_from_registry (w : World) (version : String) :
    Option String × List String :=
  match w.registry version with
  | none =>
    (none, ["Unreal Engine " ++ version ++ " not found in Windows registry."])
  | some dir =>
    if !(dir == "") && w.diskExists dir then (some dir, [])
    else
      (none,
       ["Unreal Engine " ++ version ++ " found, but directory \x27" ++ dir ++
        "\x27 does not exist."])

/-- The synthesized default engine root (line 248). -/
def defaultEnginePath (version : String) : String :=
  "C:\\Program Files\\Epic Games\\UE_" ++ version

/-- The engine-resolution fallback chain (lines 244-253): environment
override verbatim if truthy, else a verified registry hit, else the
synthesized default with no existence check. -/
def resolveEnginePath (w : World) (version : String) : String × List String :=
  if strTruthy w.envPath then
    (w.envPath.getD "",
     ["Path defined by environment variable: " ++ w.envPath.getD ""])
  else
    match find_unreal_engine_path_from_registry w version with
    | (some p, lg) => (p, lg ++ ["Path obtained from registry: " ++ p])
    | (none, lg) =>
      (defaultEnginePath version,
       lg ++ ["Using default path: " ++ defaultEnginePath version])

/-- Observable outcome of one `run_build_process` call: the final project
tree, the log lines, the values written to `status_var`, the commands
handed to `run_command_stream`, and the paths handed to `os.startfile`. -/
structure BuildOut where
  fs : FS
  logs : List String
  statuses : List String
  attempts : List String
  opened : List String
deriving DecidableEq

/-- The declared engine version (`EngineAssociation`) of the world. -/
def engineVersionOf (w : World) : String := w.engineAssoc.getD ""

/-- The engine root the pipeline resolves for the world. -/
def resolvedEngineRoot (w : World) : String :=
  (resolveEnginePath w (engineVersionOf w)).1

/-- The `UnrealBuildTool.dll` path under the resolved root (lines 255-262). -/
def buildToolDllOf (w : World) : String :=
  joinAll (resolvedEngineRoot w)
    ["Engine", "Binaries", "DotNET", "UnrealBuildTool", "UnrealBuildTool.dll"]

/-- The `Build.bat` path under the resolved root (line 277). -/
def buildScriptPathOf (w : World) : String :=
  joinAll (resolvedEngineRoot w) ["Engine", "Build", "BatchFiles", "Build.bat"]

/-- The absolute descriptor path (line 229). -/
def uprojectPathOf (w : World) : String := joinPath w.cwd (w.uprojects.headD "")

/-- The project name derived from the descriptor file name (line 240). -/
def projectNameOf (w : World) : String := stripExt (w.uprojects.headD "")

/-- The editor target name (line 241). -/
def targetNameOf (w : World) : String := projectNameOf w ++ "Editor"

/-- The compile command line (lines 269-272). -/
def compileCommandOf (w : World) : String :=
  "dotnet \"" ++ buildToolDllOf w ++ "\" " ++ targetNameOf w ++
    " Win64 Development -Project=\"" ++ uprojectPathOf w ++
    "\" -WaitMutex -FromMsBuild -Rebuild"

/-- The project-file-regeneration command line (line 281). -/
def buildCommandOf (w : World) : String :=
  "\"" ++ buildScriptPathOf w ++ "\" -projectfiles -project=\"" ++
    uprojectPathOf w ++ "\" -game -rocket"

/-- `run_build_process` (lines 215-305): the compile pipeline.  Failure
text of the loaded descriptor and of `os.startfile` is not modelled (the
claims under verification never reach those exception paths); external
commands do not modify the modelled project tree, so the post-step
existence checks consult the post-cleanup tree. -/
def run_build_process (w : World) (open_sln open_uproject : Bool) : BuildOut :=
  match w.uprojects with
  | [] => ⟨w.fs, ["No .uproject file found in the current directory."], [], [], []⟩
  | first :: rest =>
    let l1 := (if rest.isEmpty then [] else
        ["More than one .uproject file found. Selecting the first one."]) ++
      [".uproject file found: " ++ joinPath w.cwd first]
    if !(strTruthy w.engineAssoc) then
      ⟨w.fs,
       l1 ++ ["\x27EngineAssociation\x27 key not found in the .uproject file."],
       [], [], []⟩
    else
      let engine_version := w.engineAssoc.getD ""
      let project_name := stripExt first
      let target_name := project_name ++ "Editor"
      let res := resolveEnginePath w engine_version
      let l2 := l1 ++
        ["Unreal Engine version set in project: " ++ engine_version,
         "Target to compile: " ++ target_name] ++ res.2
      let build_tool_dll := joinAll res.1
        ["Engine", "Binaries", "DotNET", "UnrealBuildTool", "UnrealBuildTool.dll"]
      if !(w.diskExists build_tool_dll) then
        ⟨w.fs, l2 ++ ["File \x27" ++ build_tool_dll ++ "\x27 not found."],
         [], [], []⟩
      else
        let uproject_path := joinPath w.cwd first
        let compile_command := "dotnet \"" ++ build_tool_dll ++ "\" " ++
          target_name ++ " Win64 Development -Project=\"" ++ uproject_path ++
          "\" -WaitMutex -FromMsBuild -Rebuild"
        let cres := clean_files_and_folders w.cwd w.uprojects w.deleteFail w.fs
          project_name
        let l3 := l2 ++ ["\n=== Cleaning project files for rebuild ==="] ++ cres.2
        let build_script_path := joinAll res.1
          ["Engine", "Build", "BatchFiles", "Build.bat"]
        if !(w.diskExists build_script_path) then
          ⟨cres.1, l3 ++ ["Build.bat file not found at: " ++ build_script_path],
           [], [], []⟩
        else
          let build_command := "\"" ++ build_script_path ++
            "\" -projectfiles -project=\"" ++ uproject_path ++ "\" -game -rocket"
          let s1 := run_command_stream (w.cmd build_command) "Recreating SLN"
            "SLN file recreated successfully"
          let s2 := run_command_stream (w.cmd compile_command) "Compiling project"
            "Project compiled successfully"
          let l4 := l3 ++
            ["\n=== Recreating SLN file (calling Build.bat) ===",
             "Executing: " ++ build_command] ++ s1.logs ++
            ["\n=== Compiling the project ===",
             "Executing: " ++ compile_command] ++ s2.logs ++
            ["\nProject files compiled successfully."]
          let o1 : List String × List String :=
            if open_sln then
              if isfile cres.1 [project_name ++ ".sln"] then
                (["Opening SLN file..."],
                 [joinPath w.cwd (project_name ++ ".sln")])
              else (["SLN file not found to open."], [])
            else ([], [])
          let o2 : List String × List String :=
            if open_uproject then
              if isfile cres.1 [first] then
                (["Opening .uproject file..."], [uproject_path])
              else ([".uproject file not found to open."], [])
            else ([], [])
          ⟨cres.1, l4 ++ o1.1 ++ o2.1, s1.statuses ++ s2.statuses,
           [build_command, compile_command], o1.2 ++ o2.2⟩

/-- `MobileStyleApp.start_compile_thread` (lines 474-477) sets the status
to `"Compiling Editor..."` and then runs the pipeline on a worker thread:
the successive values the status variable takes over the whole run. -/
def start_compile_statuses (w : World) (open_sln open_uproject : Bool) :
    List String :=
  "Compiling Editor..." :: (run_build_process w open_sln open_uproject).statuses

/-! ## Derived notions and concrete instances used by the claims -/

/-- The fixed allow-list of entry names eligible for deletion by cleanup. -/
def allowListNames (project_name : String) : List String :=
  [".vs", ".idea", "Binaries", "DerivedDataCache", "Intermediate", "Saved",
   project_name ++ ".sln", ".vsconfig"]

/-- Componentwise containment of filesystems. -/
def FSsub (a b : FS) : Prop := a.dirs ⊆ b.dirs ∧ a.files ⊆ b.files

/-- A world whose resolved engine root lacks `UnrealBuildTool.dll`:
override unset, registry miss, nothing on disk. -/
def cexWorld : World where
  cwd := "C:\\Proj"
  uprojects := ["ActionRoguelike.uproject"]
  engineAssoc := some "5.3"
  envPath := none
  registry := fun _ => none
  diskExists := fun _ => false
  fs := ⟨[["Binaries"]], [["keep.txt"]]⟩
  deleteFail := fun _ => none
  cmd := fun _ => CmdResult.spawned [] 0

/-- A world whose prerequisites all pass and whose commands exit with a
nonzero code. -/
def okWorld : World where
  cwd := "C:\\Proj"
  uprojects := ["Game.uproject"]
  engineAssoc := some "5.3"
  envPath := some "D:\\UE"
  registry := fun _ => none
  diskExists := fun _ => true
  fs := ⟨[], []⟩
  deleteFail := fun _ => none
  cmd := fun _ => CmdResult.spawned ["out\n"] 1

/-- `okWorld` without the override and with a registry hit. -/
def regWorld : World :=
  { okWorld with
    envPath := none
    registry := fun v => if v == "5.3" then some "D:\\Reg" else none }

/-- `okWorld` without the override and with a registry miss. -/
def defWorld : World := { okWorld with envPath := none }

/-- A project tree with a non-allow-listed file nested inside an artifact
folder. -/
def c7Fs : FS := ⟨[["Binaries"]], [["Binaries", "data.txt"], ["keep.txt"]]⟩

/-- A project tree with two root artifact folders. -/
def c3Fs : FS := ⟨[[".vs"], ["Binaries"]], []⟩

/-- A deletion oracle that fails exactly on the root `.vs` folder. -/
def c3Fail : List String → Option String :=
  fun p => if p = [".vs"] then some "locked" else none

/-! ## Lemmas about the ANSI parser -/

theorem matchEsc_some_length {l run tl : List Char}
    (h : matchEsc l = some (run, tl)) : tl.length < l.length := by
  unfold matchEsc at h
  split at h
  · rename_i rest
    split at h
    · rename_i tl2 heq
      have hlen := congrArg List.length
        (List.takeWhile_append_dropWhile isCodeChar rest)
      rw [heq] at hlen
      simp only [List.length_append, List.length_cons] at hlen
      injection h with h1
      have h2 : tl2 = tl := congrArg Prod.snd h1
      subst h2
      simp only [List.length_cons]
      omega
    · exact absurd h (by simp)
  · exact absurd h (by simp)

theorem matchEsc_cons_ne {c : Char} (rest : List Char) (h : ¬ c = '\x1b') :
    matchEsc (c :: rest) = none := by
  unfold matchEsc
  split <;> simp_all

theorem joinSegs_foldr (a : List (List Char × Option String)) (x : List Char) :
    a.foldr (fun seg acc => seg.1 ++ acc) x = joinSegs a ++ x := by
  induction a with
  | nil => simp [joinSegs]
  | cons s rest ih => simp [joinSegs, List.foldr_cons, ih]

theorem joinSegs_append (a b : List (List Char × Option String)) :
    joinSegs (a ++ b) = joinSegs a ++ joinSegs b := by
  unfold joinSegs
  rw [List.foldr_append]
  exact joinSegs_foldr a _

theorem parseAnsiAux_join :
    ∀ (fuel : Nat) (text : List Char) (color : Option String)
      (pending : List Char), text.length < fuel →
      joinSegs (parseAnsiAux fuel text color pending) =
        pending.reverse ++ stripAnsiAux fuel text := by
  intro fuel
  induction fuel with
  | zero => intro text color pending h; exact absurd h (Nat.not_lt_zero _)
  | succ fuel ih =>
    intro text color pending h
    cases hm : matchEsc text with
    | some pr =>
      obtain ⟨run, tl⟩ := pr
      have hlen : tl.length < fuel :=
        Nat.lt_of_lt_of_le (matchEsc_some_length hm) (Nat.lt_succ_iff.mp h)
      simp only [parseAnsiAux, stripAnsiAux, hm, joinSegs_append]
      rw [ih tl _ [] hlen]
      by_cases hp : pending.isEmpty
      · have : pending = [] := by simpa using hp
        subst this
        simp [joinSegs]
      · simp [hp, joinSegs]
    | none =>
      cases text with
      | nil =>
        simp only [parseAnsiAux, stripAnsiAux, hm]
        by_cases hp : pending.isEmpty
        · have : pending = [] := by simpa using hp
          subst this
          simp [joinSegs]
        · simp [hp, joinSegs]
      | cons c rest =>
        have hlen : rest.length < fuel := by
          simp only [List.length_cons] at h
          omega
        simp only [parseAnsiAux, stripAnsiAux, hm]
        rw [ih rest color (c :: pending) hlen]
        simp

theorem parseAnsiAux_mem_ne_nil :
    ∀ (fuel : Nat) (text : List Char) (color : Option String)
      (pending : List Char) (seg : List Char × Option String),
      seg ∈ parseAnsiAux fuel text color pending → ¬ seg.1 = [] := by
  intro fuel
  induction fuel with
  | zero => intro text color pending seg h; simp [parseAnsiAux] at h
  | succ fuel ih =>
    intro text color pending seg h
    cases hm : matchEsc text with
    | some pr =>
      obtain ⟨run, tl⟩ := pr
      simp only [parseAnsiAux, hm, List.mem_append] at h
      rcases h with h1 | h2
      · by_cases hp : pending.isEmpty
        · simp [hp] at h1
        · simp only [hp, Bool.false_eq_true, if_false, List.mem_singleton] at h1
          subst h1
          simpa using hp
      · exact ih tl _ [] seg h2
    | none =>
      cases text with
      | nil =>
        simp only [parseAnsiAux, hm] at h
        by_cases hp : pending.isEmpty
        · simp [hp] at h
        · simp only [hp, Bool.false_eq_true, if_false, List.mem_singleton] at h
          subst h
          simpa using hp
      | cons c rest =>
        simp only [parseAnsiAux, hm] at h
        exact ih rest color (c :: pending) seg h

theorem parseAnsiAux_no_esc :
    ∀ (fuel : Nat) (text : List Char) (color : Option String)
      (pending : List Char), text.length < fuel →
      (∀ c ∈ text, ¬ c = '\x1b') →
      parseAnsiAux fuel text color pending =
        if (pending.reverse ++ text).isEmpty then []
        else [(pending.reverse ++ text, color)] := by
  intro fuel
  induction fuel with
  | zero => intro text color pending h; exact absurd h (Nat.not_lt_zero _)
  | succ fuel ih =>
    intro text color pending h hesc
    cases text with
    | nil => simp [parseAnsiAux, matchEsc]
    | cons c rest =>
      have hc : ¬ c = '\x1b' := hesc c (List.mem_cons_self c rest)
      have hm : matchEsc (c :: rest) = none := matchEsc_cons_ne rest hc
      have hlen : rest.length < fuel := by
        simp only [List.length_cons] at h
        omega
      simp only [parseAnsiAux, hm]
      rw [ih rest color (c :: pending) hlen
        (fun d hd => hesc d (List.mem_cons_of_mem c hd))]
      simp

theorem data_mk (l : List Char) : (String.mk l).data = l := rfl

theorem mk_data (s : String) : String.mk s.data = s := rfl

theorem joinSegs_nil : joinSegs [] = [] := rfl

theorem joinSegs_cons (a : List Char × Option String)
    (l : List (List Char × Option String)) :
    joinSegs (a :: l) = a.1 ++ joinSegs l := rfl

theorem foldr_data_eq (l : List (List Char × Option String)) :
    l.foldr (fun a acc => (String.mk a.1).data ++ acc) ([] : List Char) =
      joinSegs l := by
  induction l with
  | nil => rfl
  | cons a rest ih => simp only [List.foldr_cons, joinSegs_cons, data_mk, ih]

theorem concatTexts_map_mk (l : List (List Char × Option String)) :
    concatTexts (l.map (fun seg => (String.mk seg.1, seg.2))) =
      String.mk (joinSegs l) := by
  unfold concatTexts
  refine congrArg String.mk ?_
  rw [List.foldr_map]
  exact foldr_data_eq l

/-- C6: `parse_ansi` covers its input exactly with the escape sequences
removed (the concatenation of segment texts equals the input minus the
matches), never emits a zero-length segment, returns an empty list on empty
input and a single uncolored segment on escape-free input, updates the
current color by `0` = clear / recognized base code = set / unrecognized =
unchanged, and maps `"A\x1b[31mB\x1b[0mC"` to
`[("A", none), ("B", red), ("C", none)]`. -/
theorem ansi_parser_spec :
    (∀ s : String, concatTexts (parse_ansi s) = stripAnsiStr s) ∧
    (∀ s : String, ∀ seg ∈ parse_ansi s, ¬ seg.1 = "") ∧
    parse_ansi "" = [] ∧
    (∀ s : String, ¬ s = "" → (∀ c ∈ s.data, ¬ c = '\x1b') →
      parse_ansi s = [(s, none)]) ∧
    (∀ cur : Option String, applyCode cur "0" = none) ∧
    (∀ (cur : Option String) (code col : String),
      (code, col) ∈ ANSI_COLORS → applyCode cur code = some col) ∧
    (∀ (cur : Option String) (code : String), ¬ code = "0" →
      ansiLookup code = none → applyCode cur code = cur) ∧
    parse_ansi "A\x1b[31mB\x1b[0mC" =
      [("A", none), ("B", some "ansi_red"), ("C", none)] ∧
    parse_ansi "\x1b[31m\x1b[99mX" = [("X", some "ansi_red")] := by
  refine ⟨?_, ?_, by decide, ?_, fun cur => rfl, ?_, ?_, by decide, by decide⟩
  · intro s
    have hj := parseAnsiAux_join (s.data.length + 1) s.data none []
      (Nat.lt_succ_self _)
    simp only [parse_ansi]
    rw [concatTexts_map_mk, hj]
    simp [stripAnsiStr]
  · intro s seg hseg
    simp only [parse_ansi, List.mem_map] at hseg
    obtain ⟨t, ht, rfl⟩ := hseg
    have hne := parseAnsiAux_mem_ne_nil (s.data.length + 1) s.data none [] t ht
    intro hcon
    exact hne (by simpa [data_mk] using congrArg String.data hcon)
  · intro s hs hn
    have hd : ¬ s.data = [] := by
      intro hc
      exact hs (String.ext_iff.mpr (by simp [hc]))
    simp only [parse_ansi]
    rw [parseAnsiAux_no_esc (s.data.length + 1) s.data none []
      (Nat.lt_succ_self _) hn]
    simp [hd, mk_data]
  · intro cur code col h
    fin_cases h <;> rfl
  · intro cur code h1 h2
    simp [applyCode, h1, h2]

theorem ansi_parser_spec_witness :
    parse_ansi "AB" = [("AB", none)] ∧
    applyCode (some "ansi_red") "99" = some "ansi_red" :=
  ⟨ansi_parser_spec.2.2.2.1 "AB" (by decide) (by decide),
   ansi_parser_spec.2.2.2.2.2.2.1 (some "ansi_red") "99" (by decide) (by decide)⟩

/-- C8: starting from any queue state, the concatenation of all drain
batches followed by what is still queued equals the starting state followed
by every enqueued message in enqueue order — so no message is lost or
duplicated and order is preserved — and draining returns the whole queue at
once, immediately yielding no messages on an empty channel. -/
theorem log_channel_spec :
    (∀ (ops : List ChanOp) (q : List String),
      (runOps ops q).2.flatten ++ (runOps ops q).1 = q ++ enqueuedMsgs ops) ∧
    (∀ q : List String, drainAll q = (q, [])) ∧
    drainAll [] = ([], []) := by
  refine ⟨?_, fun q => rfl, rfl⟩
  intro ops
  induction ops with
  | nil => intro q; simp [runOps, enqueuedMsgs]
  | cons op rest ih =>
    intro q
    cases op with
    | enq m => simp [runOps, enqueuedMsgs, logPut, ih (q ++ [m])]
    | drain => simp [runOps, enqueuedMsgs, drainAll, ih []]

/-- C5: `run_command_stream` logs the start label and sets the status before
anything else; exit code 0 ends with the finish label logged and status
`"Done"`; a nonzero exit code logs a line naming the numeric code and ends
with status `"Error"`; a spawn exception is caught, its text logged, and
the status ends `"Error"`; being a total function, no case propagates an
exception to the caller. -/
theorem run_command_stream_spec (res : CmdResult)
    (start_message finish_message : String) :
    ((run_command_stream res start_message finish_message).logs.head? =
        some start_message ∧
     (run_command_stream res start_message finish_message).statuses.head? =
        some start_message) ∧
    (∀ lines, res = CmdResult.spawned lines 0 →
      (run_command_stream res start_message finish_message).logs.getLast? =
        some finish_message ∧
      (run_command_stream res start_message finish_message).statuses =
        [start_message, "Done"]) ∧
    (∀ lines code, res = CmdResult.spawned lines code → ¬ code = 0 →
      ("Error: command returned exit code " ++ toString code) ∈
        (run_command_stream res start_message finish_message).logs ∧
      (run_command_stream res start_message finish_message).statuses =
        [start_message, "Error"]) ∧
    (∀ e, res = CmdResult.raised e →
      ("Error: " ++ e) ∈
        (run_command_stream res start_message finish_message).logs ∧
      (run_command_stream res start_message finish_message).statuses =
        [start_message, "Error"]) := by
  cases res with
  | raised e =>
    refine ⟨⟨rfl, rfl⟩, ?_, ?_, ?_⟩
    · intro lines h; exact absurd h (by simp)
    · intro lines code h; exact absurd h (by simp)
    · intro e2 h
      injection h with h1
      subst h1
      exact ⟨by simp [run_command_stream], rfl⟩
  | spawned lines code =>
    by_cases hc : code = 0
    · subst hc
      refine ⟨⟨?_, ?_⟩, ?_, ?_, ?_⟩
      · simp [run_command_stream]
      · simp [run_command_stream]
      · intro lines2 h
        constructor
        · show (List.getLast? ([start_message] ++ _ ++ [finish_message])) = _
          exact List.getLast?_concat _
        · simp [run_command_stream]
      · intro lines2 code2 h hne
        exact absurd (congrArg (fun r =>
          match r with
          | CmdResult.spawned _ c => c
          | CmdResult.raised _ => 0) h).symm hne
      · intro e h; exact absurd h (by simp)
    · refine ⟨⟨?_, ?_⟩, ?_, ?_, ?_⟩
      · simp [run_command_stream, hc]
      · simp [run_command_stream, hc]
      · intro lines2 h
        have : code = 0 := (congrArg (fun r =>
          match r with
          | CmdResult.spawned _ c => c
          | CmdResult.raised _ => 1) h)
        exact absurd this hc
      · intro lines2 code2 h hne
        have hcc : code = code2 := (congrArg (fun r =>
          match r with
          | CmdResult.spawned _ c => c
          | CmdResult.raised _ => 0) h)
        subst hcc
        refine ⟨?_, by simp [run_command_stream, hc]⟩
        simp [run_command_stream, hc]
      · intro e h; exact absurd h (by simp)

theorem run_command_stream_spec_witness :
    ("Error: command returned exit code " ++ toString (2 : Int)) ∈
      (run_command_stream (CmdResult.spawned ["x\n"] 2) "s" "f").logs ∧
    (run_command_stream (CmdResult.spawned ["x\n"] 2) "s" "f").statuses =
      ["s", "Error"] ∧
    ("Error: " ++ "boom") ∈
      (run_command_stream (CmdResult.raised "boom") "s" "f").logs :=
  ⟨((run_command_stream_spec (CmdResult.spawned ["x\n"] 2) "s" "f").2.2.1
      ["x\n"] 2 rfl (by decide)).1,
   ((run_command_stream_spec (CmdResult.spawned ["x\n"] 2) "s" "f").2.2.1
      ["x\n"] 2 rfl (by decide)).2,
   ((run_command_stream_spec (CmdResult.raised "boom") "s" "f").2.2.2
      "boom" rfl).1⟩

/-- C2: the engine-resolution fallback chain.  A truthy override is
returned verbatim with the registry and disk left unconsulted (the result
is unchanged under any replacement of them); otherwise a registry hit is
returned only when its directory is truthy and exists on disk; in every
other case the synthesized default is returned unconditionally, for every
`diskExists` oracle — in particular with no existence check of the
default. -/
theorem engine_resolution_chain (w : World) (version : String) :
    (∀ p, w.envPath = some p → ¬ p = "" →
      resolveEnginePath w version =
        (p, ["Path defined by environment variable: " ++ p]) ∧
      (∀ (reg : String → Option String) (dx : String → Bool),
        resolveEnginePath { w with registry := reg, diskExists := dx } version =
          (p, ["Path defined by environment variable: " ++ p]))) ∧
    (strTruthy w.envPath = false →
      (∀ d, w.registry version = some d → ¬ d = "" → w.diskExists d = true →
        (resolveEnginePath w version).1 = d) ∧
      (w.registry version = none →
        (resolveEnginePath w version).1 = defaultEnginePath version) ∧
      (∀ d, w.registry version = some d →
        (d = "" ∨ w.diskExists d = false) →
        (resolveEnginePath w version).1 = defaultEnginePath version)) := by
  constructor
  · intro p hp hne
    constructor
    · simp [resolveEnginePath, hp, strTruthy, hne]
    · intro reg dx
      simp [resolveEnginePath, hp, strTruthy, hne]
  · intro hf
    refine ⟨?_, ?_, ?_⟩
    · intro d hd hne hex
      simp [resolveEnginePath, hf, find_unreal_engine_path_from_registry, hd,
        hne, hex]
    · intro hd
      simp [resolveEnginePath, hf, find_unreal_engine_path_from_registry, hd]
    · intro d hd hcase
      rcases hcase with h1 | h1
      · subst h1
        simp [resolveEnginePath, hf, find_unreal_engine_path_from_registry, hd]
      · simp [resolveEnginePath, hf, find_unreal_engine_path_from_registry, hd,
          h1]

theorem engine_resolution_chain_witness :
    resolveEnginePath okWorld "5.3" =
      ("D:\\UE", ["Path defined by environment variable: D:\\UE"]) ∧
    (resolveEnginePath regWorld "5.3").1 = "D:\\Reg" ∧
    (resolveEnginePath defWorld "5.3").1 = defaultEnginePath "5.3" :=
  ⟨((engine_resolution_chain okWorld "5.3").1 "D:\\UE" rfl (by decide)).1,
   ((engine_resolution_chain regWorld "5.3").2 (by decide)).1 "D:\\Reg"
     (by decide) (by decide) (by decide),
   ((engine_resolution_chain defWorld "5.3").2 (by decide)).2.1 (by decide)⟩

/-! ## Lemmas about the compile pipeline -/

theorem run_build_process_missing_dll (w : World) (o1 o2 : Bool)
    (h1 : ¬ w.uprojects = []) (h2 : strTruthy w.engineAssoc = true)
    (h3 : w.diskExists (buildToolDllOf w) = false) :
    ∃ pre, run_build_process w o1 o2 =
      ⟨w.fs, pre ++ ["File \x27" ++ buildToolDllOf w ++ "\x27 not found."],
       [], [], []⟩ := by
  rcases hu : w.uprojects with _ | ⟨first, rest⟩
  · exact absurd hu h1
  · have h3' : w.diskExists
        (joinAll (resolveEnginePath w (w.engineAssoc.getD "")).1
          ["Engine", "Binaries", "DotNET", "UnrealBuildTool",
           "UnrealBuildTool.dll"]) = false := by
      simpa [buildToolDllOf, resolvedEngineRoot, engineVersionOf] using h3
    refine ⟨(if rest.isEmpty then []
        else ["More than one .uproject file found. Selecting the first one."]) ++
      [".uproject file found: " ++ joinPath w.cwd first] ++
      ["Unreal Engine version set in project: " ++ w.engineAssoc.getD "",
       "Target to compile: " ++ (stripExt first ++ "Editor")] ++
      (resolveEnginePath w (w.engineAssoc.getD "")).2, ?_⟩
    simp only [run_build_process, hu, h2, h3', Bool.not_true, Bool.not_false,
      Bool.false_eq_true, if_false, if_true, buildToolDllOf, resolvedEngineRoot,
      engineVersionOf]

/-- C1 counterexample: a descriptor declaring 5.3, override unset, registry
miss, and nothing on disk.  The missing-tool log line is emitted and no
process is invoked, but the claimed "Error" status is never reported: the
pipeline returns without writing the status at all, so it keeps the
`"Compiling Editor..."` value set when the worker started. -/
theorem compile_missing_tool_status_counterexample :
    cexWorld.diskExists (buildToolDllOf cexWorld) = false ∧
    ("File \x27" ++ buildToolDllOf cexWorld ++ "\x27 not found.")
      ∈ (run_build_process cexWorld false false).logs ∧
    (run_build_process cexWorld false false).attempts = [] ∧
    ¬ "Error" ∈ start_compile_statuses cexWorld false false ∧
    start_compile_statuses cexWorld false false = ["Compiling Editor..."] := by
  decide

/-- C1 (amended): if the build-tool file under the resolved engine root does
not exist, the pipeline logs a line naming the missing file, invokes no
external process, and returns without writing any status value — so the
status keeps the `"Compiling Editor..."` value set by the triggering
control, and no "Error" status is reported. -/
theorem compile_missing_tool_aborts (w : World) (o1 o2 : Bool)
    (h1 : ¬ w.uprojects = []) (h2 : strTruthy w.engineAssoc = true)
    (h3 : w.diskExists (buildToolDllOf w) = false) :
    ("File \x27" ++ buildToolDllOf w ++ "\x27 not found.")
      ∈ (run_build_process w o1 o2).logs ∧
    (run_build_process w o1 o2).attempts = [] ∧
    (run_build_process w o1 o2).statuses = [] ∧
    start_compile_statuses w o1 o2 = ["Compiling Editor..."] := by
  obtain ⟨pre, heq⟩ := run_build_process_missing_dll w o1 o2 h1 h2 h3
  refine ⟨?_, ?_, ?_, ?_⟩ <;> simp [heq, start_compile_statuses]

theorem compile_missing_tool_aborts_witness :
    ("File \x27" ++ buildToolDllOf cexWorld ++ "\x27 not found.")
      ∈ (run_build_process cexWorld true true).logs ∧
    (run_build_process cexWorld true true).attempts = [] ∧
    (run_build_process cexWorld true true).statuses = [] ∧
    start_compile_statuses cexWorld true true = ["Compiling Editor..."] :=
  compile_missing_tool_aborts cexWorld true true (by decide) (by decide)
    (by decide)

/-- C10: when the build-tool file is missing, the pipeline returns with the
project tree exactly as it was — the cleanup pass never ran — and the
missing-file message is the final log line, i.e. the run ended at the
build-tool check, which precedes the cleanup step. -/
theorem tool_check_precedes_cleanup (w : World) (o1 o2 : Bool)
    (h1 : ¬ w.uprojects = []) (h2 : strTruthy w.engineAssoc = true)
    (h3 : w.diskExists (buildToolDllOf w) = false) :
    (run_build_process w o1 o2).fs = w.fs ∧
    (run_build_process w o1 o2).logs.getLast? =
      some ("File \x27" ++ buildToolDllOf w ++ "\x27 not found.") := by
  obtain ⟨pre, heq⟩ := run_build_process_missing_dll w o1 o2 h1 h2 h3
  rw [heq]
  exact ⟨rfl, List.getLast?_concat _⟩

theorem tool_check_precedes_cleanup_witness :
    (run_build_process cexWorld false false).fs = cexWorld.fs ∧
    (run_build_process cexWorld false false).logs.getLast? =
      some ("File \x27" ++ buildToolDllOf cexWorld ++ "\x27 not found.") :=
  tool_check_precedes_cleanup cexWorld false false (by decide) (by decide)
    (by decide)

/-- C4: once the prerequisites pass (descriptor found, engine version
declared, build tool and `Build.bat` present), the pipeline hands exactly
the regeneration command and then the compile command to the streamer —
for every behaviour of the external commands, so in particular the compile
step is attempted even when regeneration exits nonzero — and a nonzero
regeneration exit surfaces an "Error" status update without aborting. -/
theorem compile_attempted_after_regen (w : World) (o1 o2 : Bool)
    (h1 : ¬ w.uprojects = []) (h2 : strTruthy w.engineAssoc = true)
    (h3 : w.diskExists (buildToolDllOf w) = true)
    (h4 : w.diskExists (buildScriptPathOf w) = true) :
    (run_build_process w o1 o2).attempts =
      [buildCommandOf w, compileCommandOf w] ∧
    (∀ lines code, w.cmd (buildCommandOf w) = CmdResult.spawned lines code →
      ¬ code = 0 → "Error" ∈ (run_build_process w o1 o2).statuses) := by
  rcases hu : w.uprojects with _ | ⟨first, rest⟩
  · exact absurd hu h1
  · have h3' : w.diskExists
        (joinAll (resolveEnginePath w (w.engineAssoc.getD "")).1
          ["Engine", "Binaries", "DotNET", "UnrealBuildTool",
           "UnrealBuildTool.dll"]) = true := by
      simpa [buildToolDllOf, resolvedEngineRoot, engineVersionOf] using h3
    have h4' : w.diskExists
        (joinAll (resolveEnginePath w (w.engineAssoc.getD "")).1
          ["Engine", "Build", "BatchFiles", "Build.bat"]) = true := by
      simpa [buildScriptPathOf, resolvedEngineRoot, engineVersionOf] using h4
    constructor
    · simp only [run_build_process, hu, h2, h3', h4', Bool.not_true,
        Bool.false_eq_true, if_false]
      simp [buildCommandOf, compileCommandOf, buildScriptPathOf, buildToolDllOf,
        resolvedEngineRoot, engineVersionOf, uprojectPathOf, projectNameOf,
        targetNameOf, hu]
    · intro lines code hcmd hcode
      have hb : buildCommandOf w = "\"" ++
          joinAll (resolveEnginePath w (w.engineAssoc.getD "")).1
            ["Engine", "Build", "BatchFiles", "Build.bat"] ++
          "\" -projectfiles -project=\"" ++ joinPath w.cwd first ++
          "\" -game -rocket" := by
        simp [buildCommandOf, buildScriptPathOf, resolvedEngineRoot,
          engineVersionOf, uprojectPathOf, hu]
      rw [hb] at hcmd
      simp only [run_build_process, hu, h2, h3', h4', Bool.not_true,
        Bool.false_eq_true, if_false]
      simp [hcmd, run_command_stream, hcode]

theorem compile_attempted_after_regen_witness :
    (run_build_process okWorld false false).attempts =
      [buildCommandOf okWorld, compileCommandOf okWorld] ∧
    "Error" ∈ (run_build_process okWorld false false).statuses :=
  ⟨(compile_attempted_after_regen okWorld false false (by decide) (by decide)
      (by decide) (by decide)).1,
   (compile_attempted_after_regen okWorld false false (by decide) (by decide)
      (by decide) (by decide)).2 ["out\n"] 1 rfl (by decide)⟩

/-- C9: whenever the prerequisites pass, the orchestrator logs
`"\nProject files compiled successfully."` — the hypotheses say nothing
about the behaviour of the spawned commands, so this holds for every exit
code of the compile step — and (with the post-open options off) that
message is the final log line, emitted after the compile invocation
returned. -/
theorem compile_success_message_always (w : World)
    (h1 : ¬ w.uprojects = []) (h2 : strTruthy w.engineAssoc = true)
    (h3 : w.diskExists (buildToolDllOf w) = true)
    (h4 : w.diskExists (buildScriptPathOf w) = true) :
    (∀ o1 o2, "\nProject files compiled successfully."
      ∈ (run_build_process w o1 o2).logs) ∧
    (run_build_process w false false).logs.getLast? =
      some "\nProject files compiled successfully." := by
  rcases hu : w.uprojects with _ | ⟨first, rest⟩
  · exact absurd hu h1
  · have h3' : w.diskExists
        (joinAll (resolveEnginePath w (w.engineAssoc.getD "")).1
          ["Engine", "Binaries", "DotNET", "UnrealBuildTool",
           "UnrealBuildTool.dll"]) = true := by
      simpa [buildToolDllOf, resolvedEngineRoot, engineVersionOf] using h3
    have h4' : w.diskExists
        (joinAll (resolveEnginePath w (w.engineAssoc.getD "")).1
          ["Engine", "Build", "BatchFiles", "Build.bat"]) = true := by
      simpa [buildScriptPathOf, resolvedEngineRoot, engineVersionOf] using h4
    constructor
    · intro o1 o2
      simp only [run_build_process, hu, h2, h3', h4', Bool.not_true,
        Bool.false_eq_true, if_false]
      simp
    · simp only [run_build_process, hu, h2, h3', h4', Bool.not_true,
        Bool.false_eq_true, if_false, if_true]
      simp only [List.append_nil]
      exact List.getLast?_concat _

theorem compile_success_message_always_witness :
    "\nProject files compiled successfully."
      ∈ (run_build_process okWorld true true).logs ∧
    (run_build_process okWorld false false).logs.getLast? =
      some "\nProject files compiled successfully." :=
  ⟨(compile_success_message_always okWorld (by decide) (by decide) (by decide)
      (by decide)).1 true true,
   (compile_success_message_always okWorld (by decide) (by decide) (by decide)
      (by decide)).2⟩

/-! ## Lemmas about the cleanup pass -/

theorem contains_iff_mem {l : List (List String)} {a : List String} :
    l.contains a = true ↔ a ∈ l := List.elem_iff

theorem isPathPrefix_refl (p : List String) : isPathPrefix p p = true := by
  induction p with
  | nil => rfl
  | cons a rest ih => simp [isPathPrefix, ih]

theorem isPathPrefix_iff_append (q : List String) :
    ∀ p, isPathPrefix q p = true ↔ ∃ r, p = q ++ r := by
  induction q with
  | nil => intro p; simp [isPathPrefix]
  | cons a q ih =>
    intro p
    cases p with
    | nil => simp [isPathPrefix]
    | cons b p2 =>
      simp only [isPathPrefix, Bool.and_eq_true, beq_iff_eq]
      constructor
      · rintro ⟨rfl, h2⟩
        obtain ⟨r, rfl⟩ := (ih p2).mp h2
        exact ⟨r, rfl⟩
      · rintro ⟨r, hr⟩
        rw [List.cons_append] at hr
        injection hr with h1 h2
        exact ⟨h1.symm, (ih p2).mpr ⟨r, h2⟩⟩

theorem isPathPrefix_append_singleton (p : List String) (a b : String) :
    isPathPrefix (p ++ [a]) (p ++ [b]) = (a == b) := by
  induction p with
  | nil => simp [isPathPrefix]
  | cons x rest ih => simp [isPathPrefix, ih]

theorem FSsub_refl (fs : FS) : FSsub fs fs :=
  ⟨fun _ h => h, fun _ h => h⟩

theorem FSsub_trans {a b c : FS} (h1 : FSsub a b) (h2 : FSsub b c) :
    FSsub a c :=
  ⟨fun _ hx => h2.1 (h1.1 hx), fun _ hx => h2.2 (h1.2 hx)⟩

theorem rmtree_sub (fs : FS) (p : List String) : FSsub (rmtree fs p) fs :=
  ⟨fun _ hx => (List.mem_filter.mp hx).1, fun _ hx => (List.mem_filter.mp hx).1⟩

theorem removeFile_sub (fs : FS) (p : List String) : FSsub (removeFile fs p) fs :=
  ⟨fun _ hx => hx, fun _ hx => (List.mem_filter.mp hx).1⟩

theorem removeFoldersPass_sub (root : String) (fail : List String → Option String) :
    ∀ (names path : List String) (fs : FS),
      FSsub (removeFoldersPass root fail path names fs).1 fs := by
  intro names
  induction names with
  | nil => intro path fs; exact FSsub_refl fs
  | cons f rest ih =>
    intro path fs
    simp only [removeFoldersPass]
    cases hd : isdir fs (path ++ [f]) with
    | false => simp only [Bool.false_eq_true, if_false]; exact ih path fs
    | true =>
      simp only [if_true]
      cases hfe : fail (path ++ [f]) with
      | some e => exact ih path fs
      | none => exact FSsub_trans (ih path _) (rmtree_sub fs _)

theorem removeFilesPass_sub (root : String) (fail : List String → Option String) :
    ∀ (names path : List String) (fs : FS),
      FSsub (removeFilesPass root fail path names fs).1 fs := by
  intro names
  induction names with
  | nil => intro path fs; exact FSsub_refl fs
  | cons f rest ih =>
    intro path fs
    simp only [removeFilesPass]
    cases hd : isfile fs (path ++ [f]) with
    | false => simp only [Bool.false_eq_true, if_false]; exact ih path fs
    | true =>
      simp only [if_true]
      cases hfe : fail (path ++ [f]) with
      | some e => exact ih path fs
      | none => exact FSsub_trans (ih path _) (removeFile_sub fs _)

theorem removeFilesPass_dirs (root : String) (fail : List String → Option String) :
    ∀ (names path : List String) (fs : FS),
      (removeFilesPass root fail path names fs).1.dirs = fs.dirs := by
  intro names
  induction names with
  | nil => intro path fs; rfl
  | cons f rest ih =>
    intro path fs
    simp only [removeFilesPass]
    cases hd : isfile fs (path ++ [f]) with
    | false => simp only [Bool.false_eq_true, if_false]; exact ih path fs
    | true =>
      simp only [if_true]
      cases hfe : fail (path ++ [f]) with
      | some e => exact ih path fs
      | none => exact (ih path _).trans rfl

theorem rirChildren_sub {step : List String → FS → FS × List String}
    (hstep : ∀ p fs, FSsub (step p fs).1 fs) :
    ∀ (ns : List String) (path : List String) (fs : FS),
      FSsub (rirChildren step path ns fs).1 fs := by
  intro ns
  induction ns with
  | nil => intro path fs; exact FSsub_refl fs
  | cons n rest ih =>
    intro path fs
    simp only [rirChildren]
    exact FSsub_trans (ih path _) (hstep _ fs)

theorem rir_sub (root : String) (fail : List String → Option String)
    (fd fl : List String) :
    ∀ (fuel : Nat) (path : List String) (fs : FS),
      FSsub (remove_items_recursively root fail fd fl fuel path fs).1 fs := by
  intro fuel
  induction fuel with
  | zero => intro path fs; exact FSsub_refl fs
  | succ fuel ih =>
    intro path fs
    simp only [remove_items_recursively]
    exact FSsub_trans
      (FSsub_trans (rirChildren_sub (fun p fs2 => ih p fs2) _ _ _)
        (removeFilesPass_sub root fail fl path _))
      (removeFoldersPass_sub root fail fd path fs)

theorem clean_plugins_sub (root : String) (fail : List String → Option String)
    (fs : FS) (name : String) :
    FSsub (clean_plugins_folder root fail fs name).1 fs := by
  unfold clean_plugins_folder
  cases hd : isdir fs ["Plugins"] with
  | false => exact FSsub_refl fs
  | true =>
    simp only [Bool.not_true, Bool.false_eq_true, if_false]
    exact rir_sub root fail _ _ _ _ fs

theorem clean_sub (root : String) (uprojects : List String)
    (fail : List String → Option String) (fs : FS) (name : String) :
    FSsub (clean_files_and_folders root uprojects fail fs name).1 fs := by
  unfold clean_files_and_folders
  cases uprojects with
  | nil =>
    exact FSsub_trans (clean_plugins_sub root fail _ name)
      (removeFoldersPass_sub root fail _ [] fs)
  | cons pf rest =>
    exact FSsub_trans (clean_plugins_sub root fail _ name)
      (FSsub_trans (removeFilesPass_sub root fail _ [] _)
        (removeFoldersPass_sub root fail _ [] fs))

theorem mem_rmtree_sibling {fs : FS} {path : List String} {b f : String}
    (hne : ¬ b = f) (h : (path ++ [f]) ∈ fs.dirs) :
    (path ++ [f]) ∈ (rmtree fs (path ++ [b])).dirs := by
  simp only [rmtree, List.mem_filter]
  refine ⟨h, ?_⟩
  simp [isPathPrefix_append_singleton, hne]

theorem rmtree_deleted {fs : FS} {p q : List String} (h1 : q ∈ fs.dirs)
    (h2 : ¬ q ∈ (rmtree fs p).dirs) : isPathPrefix p q = true := by
  cases hb : isPathPrefix p q with
  | true => rfl
  | false =>
    exfalso
    apply h2
    simp only [rmtree, List.mem_filter]
    exact ⟨h1, by simp [hb]⟩

theorem rmtree_deleted_file {fs : FS} {p q : List String} (h1 : q ∈ fs.files)
    (h2 : ¬ q ∈ (rmtree fs p).files) : isPathPrefix p q = true := by
  cases hb : isPathPrefix p q with
  | true => rfl
  | false =>
    exfalso
    apply h2
    simp only [rmtree, List.mem_filter]
    exact ⟨h1, by simp [hb]⟩

theorem removeFile_deleted {fs : FS} {p q : List String} (h1 : q ∈ fs.files)
    (h2 : ¬ q ∈ (removeFile fs p).files) : q = p := by
  by_cases h : q = p
  · exact h
  · exfalso
    apply h2
    simp only [removeFile, List.mem_filter]
    exact ⟨h1, by simp [h]⟩

theorem removeFoldersPass_deleted_dir (root : String)
    (fail : List String → Option String) :
    ∀ (names path : List String) (fs : FS) (q : List String),
      q ∈ fs.dirs → ¬ q ∈ (removeFoldersPass root fail path names fs).1.dirs →
      ∃ f ∈ names, isPathPrefix (path ++ [f]) q = true := by
  intro names
  induction names with
  | nil =>
    intro path fs q h1 h2
    simp only [removeFoldersPass] at h2
    exact absurd h1 h2
  | cons g rest ih =>
    intro path fs q h1 h2
    simp only [removeFoldersPass] at h2
    cases hd : isdir fs (path ++ [g]) with
    | false =>
      rw [hd] at h2
      simp only [Bool.false_eq_true, if_false] at h2
      obtain ⟨f, hf, hp⟩ := ih path fs q h1 h2
      exact ⟨f, List.mem_cons_of_mem _ hf, hp⟩
    | true =>
      rw [hd] at h2
      simp only [if_true] at h2
      cases hfe : fail (path ++ [g]) with
      | some e =>
        rw [hfe] at h2
        obtain ⟨f, hf, hp⟩ := ih path fs q h1 h2
        exact ⟨f, List.mem_cons_of_mem _ hf, hp⟩
      | none =>
        rw [hfe] at h2
        by_cases hq : q ∈ (rmtree fs (path ++ [g])).dirs
        · obtain ⟨f, hf, hp⟩ := ih path _ q hq h2
          exact ⟨f, List.mem_cons_of_mem _ hf, hp⟩
        · exact ⟨g, List.mem_cons_self _ _, rmtree_deleted h1 hq⟩

theorem removeFoldersPass_deleted_file (root : String)
    (fail : List String → Option String) :
    ∀ (names path : List String) (fs : FS) (q : List String),
      q ∈ fs.files → ¬ q ∈ (removeFoldersPass root fail path names fs).1.files →
      ∃ f ∈ names, isPathPrefix (path ++ [f]) q = true := by
  intro names
  induction names with
  | nil =>
    intro path fs q h1 h2
    simp only [removeFoldersPass] at h2
    exact absurd h1 h2
  | cons g rest ih =>
    intro path fs q h1 h2
    simp only [removeFoldersPass] at h2
    cases hd : isdir fs (path ++ [g]) with
    | false =>
      rw [hd] at h2
      simp only [Bool.false_eq_true, if_false] at h2
      obtain ⟨f, hf, hp⟩ := ih path fs q h1 h2
      exact ⟨f, List.mem_cons_of_mem _ hf, hp⟩
    | true =>
      rw [hd] at h2
      simp only [if_true] at h2
      cases hfe : fail (path ++ [g]) with
      | some e =>
        rw [hfe] at h2
        obtain ⟨f, hf, hp⟩ := ih path fs q h1 h2
        exact ⟨f, List.mem_cons_of_mem _ hf, hp⟩
      | none =>
        rw [hfe] at h2
        by_cases hq : q ∈ (rmtree fs (path ++ [g])).files
        · obtain ⟨f, hf, hp⟩ := ih path _ q hq h2
          exact ⟨f, List.mem_cons_of_mem _ hf, hp⟩
        · exact ⟨g, List.mem_cons_self _ _, rmtree_deleted_file h1 hq⟩

theorem removeFilesPass_deleted (root : String)
    (fail : List String → Option String) :
    ∀ (names path : List String) (fs : FS) (q : List String),
      q ∈ fs.files → ¬ q ∈ (removeFilesPass root fail path names fs).1.files →
      ∃ f ∈ names, q = path ++ [f] := by
  intro names
  induction names with
  | nil =>
    intro path fs q h1 h2
    simp only [removeFilesPass] at h2
    exact absurd h1 h2
  | cons g rest ih =>
    intro path fs q h1 h2
    simp only [removeFilesPass] at h2
    cases hd : isfile fs (path ++ [g]) with
    | false =>
      rw [hd] at h2
      simp only [Bool.false_eq_true, if_false] at h2
      obtain ⟨f, hf, hp⟩ := ih path fs q h1 h2
      exact ⟨f, List.mem_cons_of_mem _ hf, hp⟩
    | true =>
      rw [hd] at h2
      simp only [if_true] at h2
      cases hfe : fail (path ++ [g]) with
      | some e =>
        rw [hfe] at h2
        obtain ⟨f, hf, hp⟩ := ih path fs q h1 h2
        exact ⟨f, List.mem_cons_of_mem _ hf, hp⟩
      | none =>
        rw [hfe] at h2
        by_cases hq : q ∈ (removeFile fs (path ++ [g])).files
        · obtain ⟨f, hf, hp⟩ := ih path _ q hq h2
          exact ⟨f, List.mem_cons_of_mem _ hf, hp⟩
        · exact ⟨g, List.mem_cons_self _ _, removeFile_deleted h1 hq⟩

theorem rirChildren_deleted {step : List String → FS → FS × List String}
    {P : List String → List String → Prop}
    (hstep : ∀ p fs q,
      ((q ∈ fs.dirs ∧ ¬ q ∈ (step p fs).1.dirs) ∨
       (q ∈ fs.files ∧ ¬ q ∈ (step p fs).1.files)) → P p q) :
    ∀ (ns path : List String) (fs : FS) (q : List String),
      ((q ∈ fs.dirs ∧ ¬ q ∈ (rirChildren step path ns fs).1.dirs) ∨
       (q ∈ fs.files ∧ ¬ q ∈ (rirChildren step path ns fs).1.files)) →
      ∃ n ∈ ns, P (path ++ [n]) q := by
  intro ns
  induction ns with
  | nil =>
    intro path fs q h
    rcases h with ⟨h1, h2⟩ | ⟨h1, h2⟩ <;> exact absurd h1 h2
  | cons n rest ih =>
    intro path fs q h
    simp only [rirChildren] at h
    rcases h with ⟨h1, h2⟩ | ⟨h1, h2⟩
    · by_cases hq : q ∈ (step (path ++ [n]) fs).1.dirs
      · obtain ⟨m, hm, hp⟩ := ih path _ q (Or.inl ⟨hq, h2⟩)
        exact ⟨m, List.mem_cons_of_mem _ hm, hp⟩
      · exact ⟨n, List.mem_cons_self _ _, hstep _ _ _ (Or.inl ⟨h1, hq⟩)⟩
    · by_cases hq : q ∈ (step (path ++ [n]) fs).1.files
      · obtain ⟨m, hm, hp⟩ := ih path _ q (Or.inr ⟨hq, h2⟩)
        exact ⟨m, List.mem_cons_of_mem _ hm, hp⟩
      · exact ⟨n, List.mem_cons_self _ _, hstep _ _ _ (Or.inr ⟨h1, hq⟩)⟩

theorem rir_deleted (root : String) (fail : List String → Option String)
    (fd fl : List String) :
    ∀ (fuel : Nat) (path : List String) (fs : FS) (q : List String),
      ((q ∈ fs.dirs ∧
        ¬ q ∈ (remove_items_recursively root fail fd fl fuel path fs).1.dirs) ∨
       (q ∈ fs.files ∧
        ¬ q ∈ (remove_items_recursively root fail fd fl fuel path fs).1.files)) →
      ∃ ext f suf, q = path ++ ext ++ [f] ++ suf ∧ (f ∈ fd ∨ f ∈ fl) := by
  intro fuel
  induction fuel with
  | zero =>
    intro path fs q h
    rcases h with ⟨h1, h2⟩ | ⟨h1, h2⟩ <;> exact absurd h1 h2
  | succ fuel ih =>
    intro path fs q h
    simp only [remove_items_recursively] at h
    rcases h with ⟨h1, h2⟩ | ⟨h1, h2⟩
    · by_cases hq1 : q ∈ (removeFoldersPass root fail path fd fs).1.dirs
      · have hq2 : q ∈ (removeFilesPass root fail path fl
            (removeFoldersPass root fail path fd fs).1).1.dirs := by
          rw [removeFilesPass_dirs]; exact hq1
        obtain ⟨n, hn, hp⟩ := rirChildren_deleted
          (fun p fs2 q2 hh => ih p fs2 q2 hh) _ path _ q (Or.inl ⟨hq2, h2⟩)
        obtain ⟨ext, f, suf, heq, hmem⟩ := hp
        refine ⟨n :: ext, f, suf, ?_, hmem⟩
        rw [heq]
        simp [List.append_assoc]
      · obtain ⟨f, hf, hpre⟩ :=
          removeFoldersPass_deleted_dir root fail fd path fs q h1 hq1
        obtain ⟨r, hr⟩ := (isPathPrefix_iff_append _ _).mp hpre
        refine ⟨[], f, r, ?_, Or.inl hf⟩
        rw [hr]
        simp
    · by_cases hq1 : q ∈ (removeFoldersPass root fail path fd fs).1.files
      · by_cases hq2 : q ∈ (removeFilesPass root fail path fl
            (removeFoldersPass root fail path fd fs).1).1.files
        · obtain ⟨n, hn, hp⟩ := rirChildren_deleted
            (fun p fs2 q2 hh => ih p fs2 q2 hh) _ path _ q (Or.inr ⟨hq2, h2⟩)
          obtain ⟨ext, f, suf, heq, hmem⟩ := hp
          refine ⟨n :: ext, f, suf, ?_, hmem⟩
          rw [heq]
          simp [List.append_assoc]
        · obtain ⟨f, hf, heq⟩ :=
            removeFilesPass_deleted root fail fl path _ q hq1 hq2
          refine ⟨[], f, [], ?_, Or.inr hf⟩
          rw [heq]
          simp
      · obtain ⟨f, hf, hpre⟩ :=
          removeFoldersPass_deleted_file root fail fd path fs q h1 hq1
        obtain ⟨r, hr⟩ := (isPathPrefix_iff_append _ _).mp hpre
        refine ⟨[], f, r, ?_, Or.inl hf⟩
        rw [hr]
        simp

theorem clean_plugins_deleted (root : String)
    (fail : List String → Option String) (fs : FS) (name : String)
    (q : List String) :
    ((q ∈ fs.dirs ∧ ¬ q ∈ (clean_plugins_folder root fail fs name).1.dirs) ∨
     (q ∈ fs.files ∧ ¬ q ∈ (clean_plugins_folder root fail fs name).1.files)) →
    ∃ ext f suf, q = ["Plugins"] ++ ext ++ [f] ++ suf ∧
      (f ∈ [".vs", "Binaries", "DerivedDataCache", "Intermediate", "Saved"] ∨
       f ∈ [name ++ ".sln", ".vsconfig"]) := by
  intro h
  unfold clean_plugins_folder at h
  cases hd : isdir fs ["Plugins"] with
  | false =>
    rw [hd] at h
    simp only [Bool.not_false, if_true] at h
    rcases h with ⟨h1, h2⟩ | ⟨h1, h2⟩ <;> exact absurd h1 h2
  | true =>
    rw [hd] at h
    simp only [Bool.not_true, Bool.false_eq_true, if_false] at h
    exact rir_deleted root fail _ _ (maxPathLen fs + 1) ["Plugins"] fs q h

theorem clean_deleted (root : String) (ups : List String)
    (fail : List String → Option String) (fs : FS) (name : String)
    (q : List String) :
    ((q ∈ fs.dirs ∧
      ¬ q ∈ (clean_files_and_folders root ups fail fs name).1.dirs) ∨
     (q ∈ fs.files ∧
      ¬ q ∈ (clean_files_and_folders root ups fail fs name).1.files)) →
    (∃ f suf, q = [f] ++ suf ∧
      (f ∈ rootArtifactFolders ∨
       (∃ pf rest2, ups = pf :: rest2 ∧
         (f = stripExt pf ++ ".sln" ∨ f = ".vsconfig")))) ∨
    (∃ ext f suf, q = ["Plugins"] ++ ext ++ [f] ++ suf ∧
      (f ∈ [".vs", "Binaries", "DerivedDataCache", "Intermediate", "Saved"] ∨
       f ∈ [name ++ ".sln", ".vsconfig"])) := by
  intro h
  rcases ups with _ | ⟨pf, rest2⟩
  · simp only [clean_files_and_folders] at h
    rcases h with ⟨h1, h2⟩ | ⟨h1, h2⟩
    · by_cases ha : q ∈ (removeFoldersPass root fail [] rootArtifactFolders fs).1.dirs
      · exact Or.inr (clean_plugins_deleted root fail _ name q (Or.inl ⟨ha, h2⟩))
      · obtain ⟨f, hf, hpre⟩ :=
          removeFoldersPass_deleted_dir root fail rootArtifactFolders [] fs q h1 ha
        obtain ⟨r, hr⟩ := (isPathPrefix_iff_append _ _).mp hpre
        refine Or.inl ⟨f, r, ?_, Or.inl hf⟩
        rw [hr]
        simp
    · by_cases ha : q ∈ (removeFoldersPass root fail [] rootArtifactFolders fs).1.files
      · exact Or.inr (clean_plugins_deleted root fail _ name q (Or.inr ⟨ha, h2⟩))
      · obtain ⟨f, hf, hpre⟩ :=
          removeFoldersPass_deleted_file root fail rootArtifactFolders [] fs q h1 ha
        obtain ⟨r, hr⟩ := (isPathPrefix_iff_append _ _).mp hpre
        refine Or.inl ⟨f, r, ?_, Or.inl hf⟩
        rw [hr]
        simp
  · simp only [clean_files_and_folders] at h
    rcases h with ⟨h1, h2⟩ | ⟨h1, h2⟩
    · by_cases ha : q ∈ (removeFoldersPass root fail [] rootArtifactFolders fs).1.dirs
      · have hb : q ∈ (removeFilesPass root fail []
            [stripExt pf ++ ".sln", ".vsconfig"]
            (removeFoldersPass root fail [] rootArtifactFolders fs).1).1.dirs := by
          rw [removeFilesPass_dirs]; exact ha
        exact Or.inr (clean_plugins_deleted root fail _ name q (Or.inl ⟨hb, h2⟩))
      · obtain ⟨f, hf, hpre⟩ :=
          removeFoldersPass_deleted_dir root fail rootArtifactFolders [] fs q h1 ha
        obtain ⟨r, hr⟩ := (isPathPrefix_iff_append _ _).mp hpre
        refine Or.inl ⟨f, r, ?_, Or.inl hf⟩
        rw [hr]
        simp
    · by_cases ha : q ∈ (removeFoldersPass root fail [] rootArtifactFolders fs).1.files
      · by_cases hb : q ∈ (removeFilesPass root fail []
            [stripExt pf ++ ".sln", ".vsconfig"]
            (removeFoldersPass root fail [] rootArtifactFolders fs).1).1.files
        · exact Or.inr (clean_plugins_deleted root fail _ name q (Or.inr ⟨hb, h2⟩))
        · obtain ⟨f, hf, heq⟩ := removeFilesPass_deleted root fail
            [stripExt pf ++ ".sln", ".vsconfig"] [] _ q ha hb
          refine Or.inl ⟨f, [], ?_, Or.inr ⟨pf, rest2, rfl, ?_⟩⟩
          · rw [heq]; simp
          · simpa using hf
      · obtain ⟨f, hf, hpre⟩ :=
          removeFoldersPass_deleted_file root fail rootArtifactFolders [] fs q h1 ha
        obtain ⟨r, hr⟩ := (isPathPrefix_iff_append _ _).mp hpre
        refine Or.inl ⟨f, r, ?_, Or.inl hf⟩
        rw [hr]
        simp

theorem removeFoldersPass_err_logged (root : String)
    (fail : List String → Option String) :
    ∀ (names path : List String) (fs : FS) (f e : String),
      f ∈ names → (path ++ [f]) ∈ fs.dirs → fail (path ++ [f]) = some e →
      ("Error removing folder " ++ joinAll root (path ++ [f]) ++ ": " ++ e) ∈
        (removeFoldersPass root fail path names fs).2 := by
  intro names
  induction names with
  | nil => intro path fs f e hf; exact absurd hf (List.not_mem_nil _)
  | cons g rest ih =>
    intro path fs f e hf hdir hfail
    simp only [removeFoldersPass]
    by_cases hg : g = f
    · subst hg
      have hd : isdir fs (path ++ [g]) = true := contains_iff_mem.mpr hdir
      rw [hd]
      simp only [if_true, hfail]
      exact List.mem_cons_self _ _
    · have hfrest : f ∈ rest := by
        rcases List.mem_cons.mp hf with h | h
        · exact absurd h.symm hg
        · exact h
      cases hd : isdir fs (path ++ [g]) with
      | false =>
        simp only [Bool.false_eq_true, if_false]
        exact ih path fs f e hfrest hdir hfail
      | true =>
        simp only [if_true]
        cases hfe : fail (path ++ [g]) with
        | some e2 =>
          exact List.mem_cons_of_mem _ (ih path fs f e hfrest hdir hfail)
        | none =>
          exact List.mem_cons_of_mem _
            (ih path _ f e hfrest (mem_rmtree_sibling hg hdir) hfail)

theorem removeFoldersPass_removes (root : String)
    (fail : List String → Option String) :
    ∀ (names path : List String) (fs : FS) (f : String),
      f ∈ names → fail (path ++ [f]) = none →
      ¬ (path ++ [f]) ∈ (removeFoldersPass root fail path names fs).1.dirs := by
  intro names
  induction names with
  | nil => intro path fs f hf; exact absurd hf (List.not_mem_nil _)
  | cons g rest ih =>
    intro path fs f hf hfail
    simp only [removeFoldersPass]
    by_cases hg : g = f
    · subst hg
      cases hd : isdir fs (path ++ [g]) with
      | false =>
        simp only [Bool.false_eq_true, if_false]
        intro hmem
        have hin := (removeFoldersPass_sub root fail rest path fs).1 hmem
        have ht : isdir fs (path ++ [g]) = true := contains_iff_mem.mpr hin
        rw [ht] at hd
        exact Bool.noConfusion hd
      | true =>
        simp only [if_true]
        rw [hfail]
        intro hmem
        have hin := (removeFoldersPass_sub root fail rest path _).1 hmem
        simp [rmtree, List.mem_filter, isPathPrefix_refl] at hin
    · have hfrest : f ∈ rest := by
        rcases List.mem_cons.mp hf with h | h
        · exact absurd h.symm hg
        · exact h
      cases hd : isdir fs (path ++ [g]) with
      | false =>
        simp only [Bool.false_eq_true, if_false]
        exact ih path fs f hfrest hfail
      | true =>
        simp only [if_true]
        cases hfe : fail (path ++ [g]) with
        | some e => exact ih path fs f hfrest hfail
        | none => exact ih path _ f hfrest hfail

/-- C3: the cleanup always runs to completion — its final log line is the
completion banner for every filesystem and every deletion-failure oracle,
so no exception propagates — a failing deletion is logged with the
offending path (at the root pass and at any level of the recursive pass)
while the pass continues: an entry whose own deletion does not fail is
still removed whatever happens to the others; and absent artifacts are
silently skipped (an empty tree yields exactly the banner lines, with no
error, for every oracle). -/
theorem cleanup_error_handling :
    (∀ (root : String) (ups : List String)
       (fail : List String → Option String) (fs : FS) (name : String),
      ((clean_files_and_folders root ups fail fs name).2).getLast? =
        some "Cleanup completed successfully!") ∧
    (∀ (root : String) (ups : List String)
       (fail : List String → Option String) (fs : FS) (name f e : String),
      f ∈ rootArtifactFolders → ([f] : List String) ∈ fs.dirs →
      fail [f] = some e →
      ("Error removing folder " ++ joinAll root [f] ++ ": " ++ e) ∈
        (clean_files_and_folders root ups fail fs name).2) ∧
    (∀ (root : String) (ups : List String)
       (fail : List String → Option String) (fs : FS) (name f : String),
      f ∈ rootArtifactFolders → fail [f] = none →
      ¬ ([f] : List String) ∈
        (clean_files_and_folders root ups fail fs name).1.dirs) ∧
    (∀ (root : String) (fail : List String → Option String)
       (fd fl : List String) (fuel : Nat) (path : List String) (fs : FS)
       (f e : String),
      f ∈ fd → (path ++ [f]) ∈ fs.dirs → fail (path ++ [f]) = some e →
      ("Error removing folder " ++ joinAll root (path ++ [f]) ++ ": " ++ e) ∈
        (remove_items_recursively root fail fd fl (fuel + 1) path fs).2) ∧
    (∀ (root name : String) (fail : List String → Option String),
      clean_files_and_folders root [] fail ⟨[], []⟩ name =
        (⟨[], []⟩, ["Cleaning project root folders...",
          "Cleaning project root files...",
          "Plugins folder not found in " ++ root ++ ".",
          "Cleanup completed successfully!"])) := by
  refine ⟨?_, ?_, ?_, ?_, ?_⟩
  · intro root ups fail fs name
    simp only [clean_files_and_folders]
    exact List.getLast?_concat _
  · intro root ups fail fs name f e hf hdir hfail
    simp only [clean_files_and_folders]
    have hmsg := removeFoldersPass_err_logged root fail rootArtifactFolders []
      fs f e hf (by simpa using hdir) (by simpa using hfail)
    simp only [List.mem_append]
    exact Or.inl (Or.inl (Or.inl (Or.inl (Or.inr (by simpa using hmsg)))))
  · intro root ups fail fs name f hf hfail
    rcases ups with _ | ⟨pf, rest2⟩
    · intro hmem
      simp only [clean_files_and_folders] at hmem
      have h1 := (clean_plugins_sub root fail _ name).1 hmem
      exact removeFoldersPass_removes root fail rootArtifactFolders [] fs f hf
        (by simpa using hfail) (by simpa using h1)
    · intro hmem
      simp only [clean_files_and_folders] at hmem
      have h1 := (clean_plugins_sub root fail _ name).1 hmem
      rw [removeFilesPass_dirs] at h1
      exact removeFoldersPass_removes root fail rootArtifactFolders [] fs f hf
        (by simpa using hfail) (by simpa using h1)
  · intro root fail fd fl fuel path fs f e hf hdir hfail
    simp only [remove_items_recursively]
    have hmsg := removeFoldersPass_err_logged root fail fd path fs f e hf
      hdir hfail
    simp only [List.mem_append]
    exact Or.inl (Or.inl hmsg)
  · intro root name fail
    rfl

theorem cleanup_error_handling_witness :
    ("Error removing folder " ++ joinAll "C:\\P" [".vs"] ++ ": " ++ "locked") ∈
      (clean_files_and_folders "C:\\P" [] c3Fail c3Fs "Game").2 ∧
    ¬ (["Binaries"] : List String) ∈
      (clean_files_and_folders "C:\\P" [] c3Fail c3Fs "Game").1.dirs ∧
    ((clean_files_and_folders "C:\\P" [] c3Fail c3Fs "Game").2).getLast? =
      some "Cleanup completed successfully!" :=
  ⟨cleanup_error_handling.2.1 "C:\\P" [] c3Fail c3Fs "Game" ".vs" "locked"
     (by decide) (by decide) (by decide),
   cleanup_error_handling.2.2.1 "C:\\P" [] c3Fail c3Fs "Game" "Binaries"
     (by decide) (by decide),
   cleanup_error_handling.1 "C:\\P" [] c3Fail c3Fs "Game"⟩

/-- C7 counterexample: `Binaries` is on the allow-list, so the root pass
deletes the whole `Binaries` tree; the file `data.txt` inside it is not on
the allow-list, exists before cleanup, and is gone afterwards — refuting
the claim that every non-allow-listed file survives. -/
theorem cleanup_allowlist_counterexample :
    (["Binaries", "data.txt"] : List String) ∈ c7Fs.files ∧
    ¬ "data.txt" ∈ allowListNames "Game" ∧
    ¬ (["Binaries", "data.txt"] : List String) ∈
      (clean_files_and_folders "C:\\Proj" ["Game.uproject"] (fun _ => none)
        c7Fs "Game").1.files := by
  decide

/-- C7 (amended): every path the cleanup deletes lies at or below an entry
whose name is on the fixed allow-list, and that entry sits either directly
in the project root or inside the `Plugins` subtree — so nothing outside
the project root is ever touched; however entries nested below a deleted
allow-listed folder are deleted with it even when their own names are not
on the allow-list. -/
theorem cleanup_scope_spec (root : String) (ups : List String)
    (fail : List String → Option String) (fs : FS) (name : String)
    (q : List String)
    (hn : ups = [] ∨ stripExt (ups.headD "") = name) :
    ((q ∈ fs.dirs ∧
      ¬ q ∈ (clean_files_and_folders root ups fail fs name).1.dirs) ∨
     (q ∈ fs.files ∧
      ¬ q ∈ (clean_files_and_folders root ups fail fs name).1.files)) →
    ∃ pre f suf, q = pre ++ [f] ++ suf ∧ f ∈ allowListNames name ∧
      (pre = [] ∨ ∃ pre2, pre = "Plugins" :: pre2) := by
  intro h
  rcases clean_deleted root ups fail fs name q h with
    ⟨f, suf, heq, hcase⟩ | ⟨ext, f, suf, heq, hcase⟩
  · refine ⟨[], f, suf, by simpa using heq, ?_, Or.inl rfl⟩
    rcases hcase with hroot | ⟨pf, rest2, hup, hf2⟩
    · simp only [rootArtifactFolders, List.mem_cons, List.not_mem_nil,
        or_false] at hroot
      simp only [allowListNames, List.mem_cons]
      tauto
    · have hname : stripExt pf = name := by
        rcases hn with h1 | h1
        · rw [hup] at h1; exact absurd h1 (by simp)
        · rw [hup] at h1; simpa using h1
      rcases hf2 with h1 | h1
      · subst h1; rw [hname]; simp [allowListNames]
      · subst h1; simp [allowListNames]
  · refine ⟨"Plugins" :: ext, f, suf, ?_, ?_, Or.inr ⟨ext, rfl⟩⟩
    · rw [heq]; simp
    · rcases hcase with h1 | h1
      · simp only [List.mem_cons, List.not_mem_nil, or_false] at h1
        simp only [allowListNames, List.mem_cons]
        tauto
      · simp only [List.mem_cons, List.not_mem_nil, or_false] at h1
        simp only [allowListNames, List.mem_cons]
        tauto

theorem cleanup_scope_spec_witness :
    ∃ pre f suf, (["Binaries", "data.txt"] : List String) =
      pre ++ [f] ++ suf ∧ f ∈ allowListNames "Game" ∧
      (pre = [] ∨ ∃ pre2, pre = "Plugins" :: pre2) :=
  cleanup_scope_spec "C:\\Proj" ["Game.uproject"] (fun _ => none) c7Fs "Game"
    ["Binaries", "data.txt"] (Or.inr (by decide))
    (Or.inr ⟨by decide, by decide⟩)
